import Mathlib

/-!
Verification development for the claude-gateway session and streaming engine.

The definitions below are a shallow embedding of the JavaScript source:
strings are modelled as `List Char`, JavaScript numbers that hold integral
values as `Int`/`Nat`, `JSON.stringify` as a function on a small JSON value
type, and the stateful parts (journal writer, SSE tailer, exec-turn engine,
PTY history buffer) as explicit state-passing functions or step relations.
Each definition cites the source location it embeds.
-/

namespace ClaudeGateway

/-- JSON values, modelling the payloads the gateway passes through
`JSON.stringify` (strings are lists of characters, numbers are restricted to
the integral values the gateway produces). -/
inductive Json where
  | str (s : List Char)
  | num (n : Int)
  | bool (b : Bool)
  | null
  | arr (items : List Json)
  | obj (fields : List (List Char × Json))

/-- Hexadecimal digit character for a value below 16. -/
def hexDigitChar : Nat → Char
  | 0 => '0' | 1 => '1' | 2 => '2' | 3 => '3' | 4 => '4' | 5 => '5' | 6 => '6'
  | 7 => '7' | 8 => '8' | 9 => '9' | 10 => 'a' | 11 => 'b' | 12 => 'c' | 13 => 'd'
  | 14 => 'e' | _ => 'f'

/-- Decimal digit character. -/
def digitChar (n : Nat) : Char := hexDigitChar (n % 10)

/-- Decimal digits of a natural number, accumulator-based; the fuel argument
bounds the recursion and is always sufficient when it starts at `n + 1`. -/
def natCharsAux : Nat → Nat → List Char → List Char
  | 0, _, acc => acc
  | fuel + 1, n, acc =>
    if n < 10 then digitChar n :: acc
    else natCharsAux fuel (n / 10) (digitChar (n % 10) :: acc)

/-- Decimal representation of a natural number, as JavaScript `String(n)`
prints an integral number. -/
def natChars (n : Nat) : List Char := natCharsAux (n + 1) n []

/-- Decimal representation of an integer, as JavaScript `String(n)` prints an
integral number. -/
def intChars (i : Int) : List Char :=
  if i < 0 then '-' :: natChars i.natAbs else natChars i.toNat

/-- Escape applied by `JSON.stringify` to one character inside a string
literal: quote, backslash, and the control characters. -/
def escapeChar (c : Char) : List Char :=
  if c = '"' then ['\\', '"']
  else if c = '\\' then ['\\', '\\']
  else if c = '\n' then ['\\', 'n']
  else if c = '\r' then ['\\', 'r']
  else if c = '\t' then ['\\', 't']
  else if c = '\x08' then ['\\', 'b']
  else if c = '\x0c' then ['\\', 'f']
  else if c.toNat < 32 then
    ['\\', 'u', '0', '0', hexDigitChar (c.toNat / 16), hexDigitChar (c.toNat % 16)]
  else [c]

/-- Serialization of a JSON string value: quoted, with every character
escaped as `JSON.stringify` escapes it. -/
def escapeString (s : List Char) : List Char :=
  '"' :: (s.map escapeChar).flatten ++ ['"']

mutual

/-- Model of `JSON.stringify` on the JSON values above. -/
def Json.stringify : Json → List Char
  | .str s => escapeString s
  | .num n => intChars n
  | .bool b => if b then "true".toList else "false".toList
  | .null => "null".toList
  | .arr items => '[' :: Json.stringifyItems items ++ [']']
  | .obj fields => '\x7b' :: Json.stringifyFields fields ++ ['\x7d']

/-- Comma-separated serialization of array items. -/
def Json.stringifyItems : List Json → List Char
  | [] => []
  | [j] => Json.stringify j
  | j :: rest => Json.stringify j ++ ',' :: Json.stringifyItems rest

/-- Comma-separated serialization of object fields. -/
def Json.stringifyFields : List (List Char × Json) → List Char
  | [] => []
  | [(k, v)] => escapeString k ++ ':' :: Json.stringify v
  | (k, v) :: rest => escapeString k ++ ':' :: Json.stringify v ++ ',' :: Json.stringifyFields rest

end

theorem hexDigitChar_ne_newline (n : Nat) : hexDigitChar n ≠ '\n' := by
  unfold hexDigitChar
  split <;> decide

theorem newline_not_mem_escapeChar (c : Char) : '\n' ∉ escapeChar c := by
  unfold escapeChar
  split
  · decide
  · split
    · decide
    · split
      · decide
      · split
        · decide
        · split
          · decide
          · split
            · decide
            · split
              · decide
              · split
                · intro h
                  simp only [List.mem_cons, List.not_mem_nil, or_false] at h
                  rcases h with h | h | h | h | h | h <;>
                    first
                      | exact absurd h.symm (hexDigitChar_ne_newline _)
                      | simp_all
                · rename_i h1 h2 h3 h4 h5 h6 h7 h8
                  intro h
                  simp only [List.mem_singleton] at h
                  exact h3 h.symm

theorem newline_not_mem_natCharsAux (fuel n : Nat) (acc : List Char) (hacc : '\n' ∉ acc) :
    '\n' ∉ natCharsAux fuel n acc := by
  induction fuel generalizing n acc with
  | zero => simpa [natCharsAux] using hacc
  | succ fuel ih =>
    unfold natCharsAux
    split
    · intro h
      rcases List.mem_cons.mp h with h | h
      · exact hexDigitChar_ne_newline _ h.symm
      · exact hacc h
    · apply ih
      intro h
      rcases List.mem_cons.mp h with h | h
      · exact hexDigitChar_ne_newline _ h.symm
      · exact hacc h

theorem newline_not_mem_natChars (n : Nat) : '\n' ∉ natChars n :=
  newline_not_mem_natCharsAux _ _ _ (by simp)

theorem newline_not_mem_intChars (i : Int) : '\n' ∉ intChars i := by
  unfold intChars
  split
  · intro h
    rcases List.mem_cons.mp h with h | h
    · simp at h
    · exact newline_not_mem_natChars _ h
  · exact newline_not_mem_natChars _

theorem newline_not_mem_escapeString (s : List Char) : '\n' ∉ escapeString s := by
  unfold escapeString
  intro h
  rcases List.mem_cons.mp h with h | h
  · simp at h
  · rcases List.mem_append.mp h with h | h
    · rcases List.mem_flatten.mp h with ⟨l, hl, hc⟩
      rcases List.mem_map.mp hl with ⟨c, _, rfl⟩
      exact newline_not_mem_escapeChar c hc
    · simp at h

mutual

theorem newline_not_mem_stringify (j : Json) : '\n' ∉ j.stringify := by
  match j with
  | .str s => exact newline_not_mem_escapeString s
  | .num n => exact newline_not_mem_intChars n
  | .bool b => cases b <;> simp [Json.stringify]
  | .null => simp [Json.stringify]
  | .arr items =>
    simp only [Json.stringify]
    intro h
    rcases List.mem_cons.mp h with h | h
    · simp at h
    · rcases List.mem_append.mp h with h | h
      · exact newline_not_mem_stringifyItems items h
      · simp at h
  | .obj fields =>
    simp only [Json.stringify]
    intro h
    rcases List.mem_cons.mp h with h | h
    · simp at h
    · rcases List.mem_append.mp h with h | h
      · exact newline_not_mem_stringifyFields fields h
      · simp at h

theorem newline_not_mem_stringifyItems (items : List Json) : '\n' ∉ Json.stringifyItems items := by
  match items with
  | [] => simp [Json.stringifyItems]
  | [j] => simpa [Json.stringifyItems] using newline_not_mem_stringify j
  | j :: k :: rest =>
    simp only [Json.stringifyItems]
    intro h
    rcases List.mem_append.mp h with h | h
    · exact newline_not_mem_stringify j h
    · rcases List.mem_cons.mp h with h | h
      · simp at h
      · exact newline_not_mem_stringifyItems (k :: rest) h

theorem newline_not_mem_stringifyFields (fields : List (List Char × Json)) :
    '\n' ∉ Json.stringifyFields fields := by
  match fields with
  | [] => simp [Json.stringifyFields]
  | [(k, v)] =>
    simp only [Json.stringifyFields]
    intro h
    rcases List.mem_append.mp h with h | h
    · exact newline_not_mem_escapeString k h
    · rcases List.mem_cons.mp h with h | h
      · simp at h
      · exact newline_not_mem_stringify v h
  | (k, v) :: f :: rest =>
    simp only [Json.stringifyFields]
    intro h
    rcases List.mem_append.mp h with h | h
    · rcases List.mem_append.mp h with h | h
      · exact newline_not_mem_escapeString k h
      · rcases List.mem_cons.mp h with h | h
        · simp at h
        · exact newline_not_mem_stringify v h
    · rcases List.mem_cons.mp h with h | h
      · simp at h
      · exact newline_not_mem_stringifyFields (f :: rest) h

end


/-!
Journal writer: src/lib/codex-stream.js, `createEventWriter` (lines 90-125).
-/

/-- One journal record in parsed form: the fields of the JSON line
`{cursor, event, data}` written by `createEventWriter().append` (the `cursor`
field is serialized as `String(cursor)`). -/
structure JRecord where
  cursor : Int
  event : List Char
  data : Json

/-- JSON object the writer serializes for a record:
`{cursor: String(cursor), event, data}` (codex-stream.js:111-115). -/
def JRecord.json (r : JRecord) : Json :=
  .obj [("cursor".toList, .str (intChars r.cursor)),
        ("event".toList, .str r.event),
        ("data".toList, r.data)]

/-- Exact text appended to the `.jsonl` file for one record:
`JSON.stringify(record) + '\n'` (codex-stream.js:116). -/
def JRecord.line (r : JRecord) : List Char := r.json.stringify ++ ['\n']

/-- State of an event writer opened by `createEventWriter`: the in-memory
cursor, the journal file both as raw text and as the list of records it holds
(the two views agree under the single-writer discipline), and the sidecar
field `meta.lastCursor` as last written by `commit`. -/
structure WriterState where
  cursor : Int
  fileRecords : List JRecord
  fileText : List Char
  metaLastCursor : Option Int

/-- Model of `append(event, data)` (codex-stream.js:109-118): increment the
cursor, append one serialized record line, return the new cursor. -/
def WriterState.append (s : WriterState) (event : List Char) (data : Json) :
    Int × WriterState :=
  let newCursor := s.cursor + 1
  let r : JRecord := ⟨newCursor, event, data⟩
  (newCursor,
   { s with cursor := newCursor,
            fileRecords := s.fileRecords ++ [r],
            fileText := s.fileText ++ r.line })

/-- Model of `commit(updates)` (codex-stream.js:119-123) restricted to the
`lastCursor` field: the sidecar stores the writer cursor. -/
def WriterState.commit (s : WriterState) : WriterState :=
  { s with metaLastCursor := some s.cursor }

/-- Run a sequence of `append` calls. -/
def runAppends (s : WriterState) : List (List Char × Json) → WriterState
  | [] => s
  | (e, d) :: rest => runAppends (s.append e d).2 rest

/-- Maximum record cursor present in a journal (0 for an empty journal; all
real cursors are positive). -/
def journalMaxCursor (l : List JRecord) : Int :=
  l.foldl (fun m r => max m r.cursor) 0

/-!
Crash recovery of the cursor: src/lib/codex-stream.js,
`readLastCursorFromFile` (lines 64-88) and the writer-open recovery
(lines 100-104). The 64 KiB tail chunk is modelled by its list of lines, a
missing file by `none`; each line is classified by what `JSON.parse` and
`Number(entry.cursor)` do to it.
-/

/-- Classification of one line of the tail chunk of a `.jsonl` file: blank
(only whitespace), malformed (`JSON.parse` throws), or a parsed record whose
`Number(entry.cursor)` is finite (`record (some c)`) or not
(`record none`). -/
inductive TailLine where
  | blank
  | malformed
  | record (cursor : Option Int)
deriving DecidableEq

/-- Scan loop of `readLastCursorFromFile` over the reversed lines
(codex-stream.js:73-83): skip blank lines, skip lines `JSON.parse` rejects,
and at the first parsed line return its cursor when finite and 0 otherwise. -/
def scanLastCursor : List TailLine → Int
  | [] => 0
  | .blank :: rest => scanLastCursor rest
  | .malformed :: rest => scanLastCursor rest
  | .record (some c) :: _ => c
  | .record none :: _ => 0

/-- Model of `readLastCursorFromFile` (codex-stream.js:64-88) applied to the
lines of the tail chunk of the file; `none` is an absent file. -/
def readLastCursorFromFile : Option (List TailLine) → Int
  | none => 0
  | some lines => scanLastCursor lines.reverse

/-- Writer-open cursor recovery (codex-stream.js:100-104): when the sidecar
`lastCursor` is missing or non-finite (modelled `none`) it is recovered from
the journal file; `let cursor = meta.lastCursor || 0` is the identity on the
resulting integers because `0 || 0` is `0`. -/
def openWriterCursor (metaLastCursor : Option Int) (file : Option (List TailLine)) : Int :=
  match metaLastCursor with
  | some c => c
  | none => readLastCursorFromFile file

/-!
SSE framing and the tailer: src/lib/codex-stream.js, `formatSSE`
(lines 218-226), `CodexTailer.streamHistory` (lines 311-348) and
`CodexTailer.processNewLines` (lines 350-381).
-/

/-- Model of `Array.prototype.join(sep)` on a list of strings. -/
def joinWith (sep : Char) : List (List Char) → List Char
  | [] => []
  | [x] => x
  | x :: rest => x ++ sep :: joinWith sep rest

/-- Model of `formatSSE(eventType, cursor, data)` (codex-stream.js:218-226):
push the `id:`, `event:` and `data:` lines plus two empty strings, then join
with a newline. -/
def formatSSE (eventType : List Char) (cursor : List Char) (data : Json) : List Char :=
  joinWith '\n'
    ["id: ".toList ++ cursor,
     "event: ".toList ++ eventType,
     "data: ".toList ++ data.stringify,
     [],
     []]

/-- Journal record as the tailer reads it: the parsed cursor (`none` when
`Number(entry.cursor)` is not finite) plus a payload identity standing for
the record's `event`/`data` fields. -/
structure SEntry where
  cursor : Option Int
  payload : Nat
deriving DecidableEq

/-- One line of the journal file as read by the tailer. -/
inductive JLine where
  | blank
  | malformed
  | entry (e : SEntry)
deriving DecidableEq

/-- Parsed records of a list of journal lines, in file order. -/
def journalEntries (lines : List JLine) : List SEntry :=
  lines.filterMap fun l => match l with | .entry e => some e | _ => none

/-- Test whether a parsed record has a finite cursor above `k`. -/
def SEntry.cursorAbove (e : SEntry) (k : Int) : Bool :=
  match e.cursor with
  | some c => decide (k < c)
  | none => false

/-- Limit test `eventCount >= limit` of the history loop (`none` models
`limit = Infinity`, the default). -/
def limitReached : Option Nat → Nat → Bool
  | none, _ => false
  | some l, n => decide (l ≤ n)

/-- Journal-record frames `streamHistory` writes (codex-stream.js:321-342),
given `since`, `limit` and the emitted-so-far count: blank lines are skipped
before the limit test, the loop breaks once `limit` records were emitted,
malformed lines, records without a finite cursor and records with
`cursor ≤ since` are skipped. -/
def streamHistoryEmits (since : Int) (limit : Option Nat) :
    List JLine → Nat → List SEntry
  | [], _ => []
  | .blank :: rest, n => streamHistoryEmits since limit rest n
  | .malformed :: rest, n =>
    if limitReached limit n then [] else streamHistoryEmits since limit rest n
  | .entry e :: rest, n =>
    if limitReached limit n then []
    else
      match e.cursor with
      | none => streamHistoryEmits since limit rest n
      | some c =>
        if c ≤ since then streamHistoryEmits since limit rest n
        else e :: streamHistoryEmits since limit rest (n + 1)

/-- Frames `processNewLines` broadcasts for lines appended after the history
snapshot (codex-stream.js:364-373): every line that parses is broadcast to
every client, with no cursor filtering. -/
def processNewLinesEmits (lines : List JLine) : List SEntry :=
  lines.filterMap fun l => match l with | .entry e => some e | _ => none

/-- Complete sequence of journal-record frames a client attached with
cursor `since` and no limit receives: the history replay over the snapshot
(between `history_start` and `history_end`), then the live broadcasts of the
suffix appended afterwards. -/
def deliveredRecords (snapshot suffix : List JLine) (since : Int) : List SEntry :=
  streamHistoryEmits since none snapshot 0 ++ processNewLinesEmits suffix


/-!
PTY history buffer: src/unnamed/part_001, `ptyProcess.onData` in
`getSession` (lines 412-420).
-/

/-- One `onData` update of the PTY history buffer: append the chunk, and when
the buffer exceeds the limit keep only its last `limit` characters
(`history = history.slice(history.length - HISTORY_LIMIT)`). -/
def historyStep (limit : Nat) (history chunk : List Char) : List Char :=
  if limit < (history ++ chunk).length then
    (history ++ chunk).drop ((history ++ chunk).length - limit)
  else history ++ chunk

/-- History buffer after a sequence of output chunks, starting from the empty
buffer created at spawn (`HISTORY_LIMIT` defaults to 200000). -/
def historyAfter (limit : Nat) (chunks : List (List Char)) : List Char :=
  chunks.foldl (historyStep limit) []

/-!
Session-id validation: src/lib/codex-stream.js, `UUID_PATTERN` (line 19,
which carries the `/i` flag), `validateSessionId` (lines 26-30) and
`getSessionPaths` (lines 32-38).
-/

/-- Character class `[a-f0-9]` of the UUID pattern. -/
def isLowerHex (c : Char) : Bool :=
  ('a' ≤ c && c ≤ 'f') || ('0' ≤ c && c ≤ '9')

/-- Character class `[a-f0-9]` under the `/i` flag: upper-case hex digits are
accepted as well. -/
def isHexCaseInsensitive (c : Char) : Bool :=
  isLowerHex c || ('A' ≤ c && c ≤ 'F')

/-- Matching of the anchored `8-4-4-4-12` UUID shape with a given hex
character class (hex characters never include the dash, so the regex is
equivalent to splitting on dashes and checking the five group lengths). -/
def matchesUuidShape (hex : Char → Bool) (s : List Char) : Bool :=
  match s.splitOn '-' with
  | [a, b, c, d, e] =>
    a.length == 8 && b.length == 4 && c.length == 4 && d.length == 4 &&
      e.length == 12 && (a ++ b ++ c ++ d ++ e).all hex
  | _ => false

/-- Model of `UUID_PATTERN.test(sessionId)`: the source regex has the `/i`
flag, so hex digits of either case match. -/
def uuidPatternTest (s : List Char) : Bool :=
  matchesUuidShape isHexCaseInsensitive s

/-- Stable error codes thrown by the storage helpers. -/
inductive GatewayError where
  | INVALID_SESSION_ID
  | SESSION_NOT_FOUND
deriving DecidableEq

/-- Model of `validateSessionId` (codex-stream.js:26-30): throw
`INVALID_SESSION_ID` unless the pattern matches. -/
def validateSessionId (s : List Char) : Except GatewayError Unit :=
  if uuidPatternTest s then .ok () else .error .INVALID_SESSION_ID

/-- Model of `getSessionPaths` (codex-stream.js:32-38): validate, then build
the sidecar and journal paths. -/
def getSessionPaths (s : List Char) : Except GatewayError (List Char × List Char) :=
  match validateSessionId s with
  | .error e => .error e
  | .ok _ => .ok (s ++ ".json".toList, s ++ ".jsonl".toList)

/-- Modelled from the spec's words, for comparison with the source pattern:
the lower-case-only regex `^[a-f0-9]{8}-([a-f0-9]{4}-){3}[a-f0-9]{12}$`
named in the claim, with no `/i` flag. -/
def specLowercaseUuid (s : List Char) : Bool :=
  matchesUuidShape isLowerHex s

/-!
Exec-turn engine: src/unnamed/part_001, `startNextCodexTurn`
(lines 978-1198), `finalizeRun` (lines 1019-1072), the stdout line handler
(lines 1116-1176), the messages handler (lines 1200-1331) and the cancel
handler (lines 939-976).
-/

/-- Roles of journal messages. -/
inductive Role where
  | user
  | assistant
deriving DecidableEq

/-- Stop reasons (source strings `end_turn`, `error`, `cancelled`). -/
inductive StopReason where
  | endTurn
  | error
  | cancelled
deriving DecidableEq

/-- Content-block variants the exec engine writes. -/
inductive Block where
  | text (t : List Char)
  | thinking (t : List Char)
  | toolUse (toolUseId command : List Char)
  | toolResult (toolUseId content : List Char) (isError : Bool) (charCount : Nat)
deriving DecidableEq

/-- Journal events appended by the exec-turn engine, with payloads abstracted
to the fields the invariants mention (source event names `message_start`,
`content_block`, `message_end`, `session_meta`). -/
inductive JEvent where
  | messageStart (id : Nat) (role : Role)
  | contentBlock (messageId : Nat) (index : Nat) (block : Block)
  | messageEnd (id : Nat) (stopReason : StopReason)
  | sessionMeta
deriving DecidableEq

/-- Whitespace test used to model `String.prototype.trim` and `/\s+/`. -/
def isJsWhitespace (c : Char) : Bool := c.isWhitespace

/-- Model of `String.prototype.trim`. -/
def trimChars (s : List Char) : List Char :=
  ((s.dropWhile isJsWhitespace).reverse.dropWhile isJsWhitespace).reverse

/-- Parsed classification of one line of the exec child's stdout, as consumed
by the `stdoutRl.on('line')` handler (part_001:1116-1176); `otherOrUnparsed`
covers blank lines, JSON parse failures and record types the handler
ignores. -/
inductive ChildLine where
  | threadStarted (tid : List Char)
  | turnCompleted
  | itemStartedCommandExecution (toolId command : List Char)
  | itemCompletedCommandExecution (toolId output : List Char) (exitCode : Int)
  | itemCompletedAgentMessage (text : List Char)
  | itemCompletedReasoning (text : List Char)
  | otherOrUnparsed
deriving DecidableEq

/-- Per-turn mutable state of `startNextCodexTurn`: the `finished` guard of
`finalizeRun`, the running `blockIndex`, the bounded stderr buffer, the
assistant preview, and the journal events appended for this turn. -/
structure TurnState where
  finished : Bool
  blockIndex : Nat
  stderrBuf : List Char
  assistantPreview : List Char
  events : List JEvent
deriving DecidableEq

/-- Append one content block for message `m`, incrementing `blockIndex`
(the `append('content_block', {index: blockIndex++, ...})` pattern). -/
def TurnState.appendBlock (s : TurnState) (m : Nat) (b : Block) : TurnState :=
  { s with blockIndex := s.blockIndex + 1,
           events := s.events ++ [.contentBlock m s.blockIndex b] }

/-- Model of the stdout `'line'` handler (part_001:1116-1176) for one parsed
line: `thread.started` and `turn.completed` only update bookkeeping,
`item.started`/`item.completed` append content blocks. Note the handler has
no check of the `finished` flag. -/
def stdoutLineStep (m : Nat) (s : TurnState) : ChildLine → TurnState
  | .threadStarted _ => s
  | .turnCompleted => s
  | .itemStartedCommandExecution toolId command =>
    s.appendBlock m (.toolUse toolId command)
  | .itemCompletedCommandExecution toolId output exitCode =>
    s.appendBlock m (.toolResult toolId output (exitCode != 0) output.length)
  | .itemCompletedAgentMessage t =>
    { s.appendBlock m (.text t) with
        assistantPreview := if t = [] then s.assistantPreview else t }
  | .itemCompletedReasoning t => s.appendBlock m (.thinking t)
  | .otherOrUnparsed => s

/-- Stderr preview used by `finalizeRun`: `stderrBuf.trim().slice(0, 2000)`. -/
def stderrPreview (s : List Char) : List Char := (trimChars s).take 2000

/-- Synthetic failure text of `finalizeRun` when no block was emitted
(part_001:1026-1029). -/
def execFailText (code : Option Int) (pre : List Char) : List Char :=
  "Codex failed to produce a response (exit=".toList ++
    (match code with | some c => intChars c | none => "unknown".toList) ++
    ").\n".toList ++
    (if pre = [] then [] else "\nStderr:\n".toList ++ pre)

/-- Synthetic stderr note of `finalizeRun` when blocks were emitted
(part_001:1031). -/
def stderrNoteText (pre : List Char) : List Char :=
  "(Codex stderr)\n".toList ++ pre

/-- Model of `finalizeRun(stopReason, code, signal)` (part_001:1019-1072)
restricted to its journal effect: a no-op when already finished; otherwise
set the guard, append the synthetic blocks the stop reason calls for, and
append exactly one `message_end`. -/
def finalizeStep (m : Nat) (code : Option Int) (s : TurnState)
    (stopReason : StopReason) : TurnState :=
  if s.finished then s
  else
    let s1 := { s with finished := true }
    let s2 :=
      if stopReason = .error then
        let pre := stderrPreview s1.stderrBuf
        if s1.blockIndex = 0 then s1.appendBlock m (.text (execFailText code pre))
        else if pre ≠ [] then s1.appendBlock m (.text (stderrNoteText pre))
        else s1
      else s1
    let s3 :=
      if stopReason == StopReason.cancelled && s2.blockIndex == 0 then
        s2.appendBlock m (.text "Cancelled.".toList)
      else s2
    { s3 with events := s3.events ++ [.messageEnd m stopReason] }

/-- Model of the stderr `'data'` handler (part_001:1178-1187): append and
keep only the last 8000 characters. -/
def stderrDataStep (s : TurnState) (text : List Char) : TurnState :=
  if trimChars text = [] then s
  else
    let buf := s.stderrBuf ++ text
    { s with stderrBuf := if 8000 < buf.length then buf.drop (buf.length - 8000) else buf }

/-- Events that can reach a running turn: a parsed stdout line, a stderr
chunk, or an invocation of its `finalizeRun` (from the process `close` or
`error` event, or from the cancel handler). -/
inductive TurnAct where
  | stdoutLine (l : ChildLine)
  | stderrData (text : List Char)
  | finalize (stopReason : StopReason) (code : Option Int)
deriving DecidableEq

/-- One step of a running turn. -/
def turnStep (m : Nat) (s : TurnState) : TurnAct → TurnState
  | .stdoutLine l => stdoutLineStep m s l
  | .stderrData t => stderrDataStep s t
  | .finalize r code => finalizeStep m code s r

/-- State of a turn right after `startNextCodexTurn` appended the assistant
`message_start` (part_001:1100-1106) with fresh message id `m`. -/
def initTurnState (m : Nat) : TurnState :=
  { finished := false, blockIndex := 0, stderrBuf := [],
    assistantPreview := [], events := [JEvent.messageStart m .assistant] }

/-- Journal events of one exec turn after a sequence of acts. -/
def runTurn (m : Nat) (acts : List TurnAct) : TurnState :=
  acts.foldl (turnStep m) (initTurnState m)

/-- Modelled from the claim's words: every `message_start` with id `m` at
position `i` has exactly one `message_end` with id `m`, that end comes after
the start, and every `content_block` with messageId `m` lies strictly
between the two. -/
def specMessageBracketing (j : List JEvent) : Prop :=
  ∀ (m i : Nat) (r : Role), j[i]? = some (JEvent.messageStart m r) →
    ∃ k, i < k ∧ (∃ sr, j[k]? = some (JEvent.messageEnd m sr)) ∧
      (∀ (k' : Nat) (sr' : StopReason), j[k']? = some (JEvent.messageEnd m sr') → k' = k) ∧
      (∀ (l idx : Nat) (b : Block), j[l]? = some (JEvent.contentBlock m idx b) → i < l ∧ l < k)

/-- One queued exec turn (the messages handler pushes
`{prompt, content, imagePath, userMessageId}`; the fields beyond the prompt
and user message id do not affect scheduling). -/
structure Turn where
  prompt : List Char
  userMessageId : Nat
deriving DecidableEq

/-- Per-session scheduling state of the exec engine: `active` is the
session's membership in `activeCodexRuns` together with the turn being run,
`queue` is `codexQueueBySession`, and `started`/`submitted` record the
histories of started and submitted turns for specification purposes. -/
structure EngineState where
  active : Option Turn
  queue : List Turn
  started : List Turn
  submitted : List Turn
deriving DecidableEq

/-- Scheduling operations of the exec engine. -/
inductive EngineOp where
  | submit (t : Turn)
  | startNext
  | finishTurn
  | clearQueue
deriving DecidableEq

/-- One scheduling step: `submit` is `queue.push` in the messages handler
(part_001:1323); `startNext` is `startNextCodexTurn` (part_001:978-996),
which returns at once when the session is in `activeCodexRuns` and otherwise
shifts the queue head; `finishTurn` is `finalizeRun` removing the session
from `activeCodexRuns` (part_001:1067); `clearQueue` is the cancel handler
with `clearQueue` set (part_001:943-945). -/
def engineStep (s : EngineState) : EngineOp → EngineState
  | .submit t => { s with queue := s.queue ++ [t], submitted := s.submitted ++ [t] }
  | .startNext =>
    match s.active with
    | some _ => s
    | none =>
      match s.queue with
      | [] => s
      | t :: rest => { s with active := some t, queue := rest, started := s.started ++ [t] }
  | .finishTurn => { s with active := none }
  | .clearQueue => { s with queue := [] }

/-- Engine state of a fresh session. -/
def initEngine : EngineState :=
  { active := none, queue := [], started := [], submitted := [] }

/-- Engine state after a sequence of scheduling operations. -/
def runEngine (ops : List EngineOp) : EngineState :=
  ops.foldl engineStep initEngine

/-- Per-session control state seen by the cancel handler
(part_001:939-976): whether `codexProcBySession` and
`codexFinalizeBySession` hold the session, the `finished` flag of the
registered `finalizeRun`, and the number of `message_end` records with
stopReason `cancelled` in the journal. -/
structure CancelCtl where
  hasProc : Bool
  hasFinalize : Bool
  finished : Bool
  cancelledEnds : Nat
deriving DecidableEq

/-- Response body of the cancel endpoint. -/
structure CancelResponse where
  ok : Bool
  cancelled : Bool
  running : Bool
deriving DecidableEq

/-- Journal and bookkeeping effect of `finalizeRun('cancelled', null,
'cancel_request')` (part_001:1019-1072): a no-op when already finished;
otherwise append one cancelled `message_end` and release the session's
entries in both maps. -/
def finalizeCancelledCtl (s : CancelCtl) : CancelCtl :=
  if s.finished then s
  else { s with finished := true, cancelledEnds := s.cancelledEnds + 1,
                hasProc := false, hasFinalize := false }

/-- Model of the cancel handler (part_001:939-976) with `clearQueue` unset:
when neither map holds the session, respond `{cancelled:false,
running:false}`; otherwise invoke the registered finalize (when present),
signal the child, and respond `{cancelled:true, running:true}`. -/
def cancelStep (s : CancelCtl) : CancelCtl × CancelResponse :=
  if !s.hasProc && !s.hasFinalize then
    (s, { ok := true, cancelled := false, running := false })
  else
    let s1 := if s.hasFinalize then finalizeCancelledCtl s else s
    (s1, { ok := true, cancelled := true, running := true })

/-- Invariant linking the three control fields in every state the engine
reaches: a registered child process always has a registered finalize
(`finalizeRun` is stored before the spawn, and both entries are deleted
together by `finalizeRun` itself), and a registered finalize has not run
yet. -/
def CancelCtlInv (s : CancelCtl) : Prop :=
  (s.hasProc = true → s.hasFinalize = true) ∧ (s.hasFinalize = true → s.finished = false)

/-- Model of `formatModelLabel` (part_001:127-134). The two chained regex
replacements `-codex-` to a spaced `codex` and `-` to a space amount to
mapping every dash to a space after the `gpt-` prefix strip. -/
def formatModelLabel (m : List Char) : List Char :=
  let t := trimChars m
  if t = [] then t
  else (if "gpt-".toList.isPrefixOf t then t.drop 4 else t).map
    (fun c => if c = '-' then ' ' else c)

/-- Tokens of `trimmed.split(/\s+/).filter(Boolean)`. -/
def splitWsTokens (s : List Char) : List (List Char) :=
  (s.splitOnP isJsWhitespace).filter (· ≠ [])

/-- Listing text of the `/models` command (part_001:1286-1292). -/
def modelsListingText (current : List Char) (choices : List (List Char)) : List Char :=
  "Current model: ".toList ++ current ++ "\n\nQuick set:\n".toList ++
    joinWith '\n' (choices.map fun m =>
      "- ".toList ++ formatModelLabel m ++ "  (/model ".toList ++ m ++ ")".toList)

/-- Outcome of one POST to the messages handler (part_001:1200-1331): the
user message events, the inline assistant events of the slash-command branch
(empty otherwise), whether a turn was enqueued and `startNextCodexTurn`
scheduled, whether the sidecar was committed, the response `accepted` flag,
and the session model written by `/model <name>`. -/
structure SubmitOutcome where
  userEvents : List JEvent
  assistantEvents : List JEvent
  enqueued : Bool
  spawnScheduled : Bool
  committed : Bool
  accepted : Bool
  newModel : Option (List Char)
deriving DecidableEq

/-- Model of the messages handler (part_001:1200-1331) for an existing
session: append the user message triple, then either handle a
`/models`-or-`/model`-prefixed command inline (assistant triple, commit, no
enqueue) or enqueue the turn and schedule `startNextCodexTurn`. -/
def handleCodexMessage (sessionModel defaultModel : List Char)
    (choices : List (List Char)) (content : List Char)
    (imagePath : Option (List Char)) (userId assistantId : Nat) : SubmitOutcome :=
  let prompt := content ++
    (match imagePath with
     | some p => "\n\n[Attached image: ".toList ++ p ++ "]".toList
     | none => [])
  let userEvents := [JEvent.messageStart userId .user,
                     JEvent.contentBlock userId 0 (.text prompt),
                     JEvent.messageEnd userId .endTurn]
  let trimmed := trimChars content
  if trimmed == "/models".toList || "/model".toList.isPrefixOf trimmed then
    let current :=
      if sessionModel ≠ [] then sessionModel
      else if defaultModel ≠ [] then defaultModel
      else "(default)".toList
    let parts := splitWsTokens trimmed
    let requested := if 2 ≤ parts.length then joinWith ' ' parts.tail else []
    let resultText :=
      if trimmed == "/models".toList then modelsListingText current choices
      else if requested = [] then
        "Current model: ".toList ++ current ++
          "\n\nUse: /model <name> or /models".toList
      else "Model set to: ".toList ++ requested
    let newModel :=
      if trimmed == "/models".toList then none
      else if requested = [] then none
      else some requested
    { userEvents := userEvents,
      assistantEvents := [JEvent.messageStart assistantId .assistant,
                          JEvent.contentBlock assistantId 0 (.text resultText),
                          JEvent.messageEnd assistantId .endTurn],
      enqueued := false, spawnScheduled := false, committed := true,
      accepted := true, newModel := newModel }
  else
    { userEvents := userEvents, assistantEvents := [],
      enqueued := true, spawnScheduled := true, committed := true,
      accepted := true, newModel := none }


/-- Modelled from the claim's words, for comparison with the source scan:
scanning from the end, skip malformed (and blank and cursor-less) lines and
take the cursor of the first valid record found, 0 when none exists. -/
def firstValidCursorFromEnd : List TailLine → Int
  | [] => 0
  | .record (some c) :: _ => c
  | _ :: rest => firstValidCursorFromEnd rest

theorem scanLastCursor_eq_dropWhile (l : List TailLine) :
    scanLastCursor l =
      (match l.dropWhile (fun x => x == TailLine.blank || x == TailLine.malformed) with
       | [] => 0
       | TailLine.record (some c) :: _ => c
       | _ => 0) := by
  induction l with
  | nil => rfl
  | cons a rest ih =>
    cases a with
    | blank => simpa [scanLastCursor, List.dropWhile_cons] using ih
    | malformed => simpa [scanLastCursor, List.dropWhile_cons] using ih
    | record c =>
      cases c with
      | none => simp [scanLastCursor, List.dropWhile_cons]
      | some v => simp [scanLastCursor, List.dropWhile_cons]

/-- Claim C6 (amended): on writer open with a missing or non-finite sidecar
lastCursor, the starting cursor is recovered by scanning the tail chunk's
lines from the end, skipping blank lines and lines that fail to parse; at
the first line that parses the cursor is taken when finite and the recovery
yields 0 otherwise; the result is 0 when the file is absent; and the next
append continues with the recovered cursor plus one. -/
theorem c6_last_cursor_recovery (lines : List TailLine) (file : Option (List TailLine))
    (e : List Char) (d : Json) (t : List Char) (m : Option Int) :
    (openWriterCursor none (some lines) =
      (match lines.reverse.dropWhile (fun x => x == TailLine.blank || x == TailLine.malformed) with
       | [] => 0
       | TailLine.record (some c) :: _ => c
       | _ => 0)) ∧
    openWriterCursor none none = 0 ∧
    ((WriterState.mk (openWriterCursor m file) [] t none).append e d).1 =
      openWriterCursor m file + 1 := by
  refine ⟨?_, rfl, rfl⟩
  simpa [openWriterCursor, readLastCursorFromFile] using
    scanLastCursor_eq_dropWhile lines.reverse

/-- Claim C6 counterexample: when the trailing line parses as JSON but its
cursor is not a finite number, the source returns 0 instead of taking the
cursor of the first valid record found from the end (7 here). -/
theorem c6_counterexample :
    readLastCursorFromFile (some [TailLine.record (some 7), TailLine.record none]) = 0 ∧
    firstValidCursorFromEnd ([TailLine.record (some 7), TailLine.record none]).reverse = 7 ∧
    readLastCursorFromFile (some [TailLine.record (some 7), TailLine.record none]) ≠
      firstValidCursorFromEnd ([TailLine.record (some 7), TailLine.record none]).reverse := by
  refine ⟨by decide, by decide, by decide⟩

/-- Claim C5 (amended): formatSSE returns exactly the frame
`id: <cursor>\nevent: <kind>\ndata: <JSON.stringify(data)>\n\n`, that is,
the data line is followed by two newline characters (a single blank-line
terminator), not three. -/
theorem c5_formatSSE_frame (eventType cursor : List Char) (data : Json) :
    formatSSE eventType cursor data =
      "id: ".toList ++ cursor ++ '\n' ::
        ("event: ".toList ++ eventType ++ '\n' ::
          ("data: ".toList ++ data.stringify ++ ['\n', '\n'])) := by
  simp [formatSSE, joinWith]

/-- Claim C5 counterexample: at the heartbeat frame the double-blank
terminator named by the claim (three consecutive newlines after the data
content) does not match what formatSSE returns. -/
theorem c5_counterexample :
    formatSSE "heartbeat".toList "1".toList (Json.obj []) ≠
      "id: 1\nevent: heartbeat\ndata: \x7b\x7d\n\n\n".toList := by
  decide

theorem historyStep_foldl (limit : Nat) :
    ∀ (chunks : List (List Char)) (h a : List Char), h.length ≤ limit → h <:+ a →
      (chunks.foldl (historyStep limit) h).length ≤ limit ∧
        chunks.foldl (historyStep limit) h <:+ a ++ chunks.flatten := by
  intro chunks
  induction chunks with
  | nil => intro h a hl hs; simpa using ⟨hl, hs⟩
  | cons c rest ih =>
    intro h a hl hs
    have hstep_len : (historyStep limit h c).length ≤ limit := by
      unfold historyStep
      split
      · simp only [List.length_drop]
        omega
      · omega
    have happ : h ++ c <:+ a ++ c := by
      obtain ⟨t, rfl⟩ := hs
      exact ⟨t, by simp⟩
    have hstep_suf : historyStep limit h c <:+ a ++ c := by
      unfold historyStep
      split
      · exact (List.drop_suffix _ _).trans happ
      · exact happ
    have := ih (historyStep limit h c) (a ++ c) hstep_len hstep_suf
    simpa [List.append_assoc] using this

/-- Claim C9: after any sequence of PTY output chunks, the history buffer's
length is at most the configured limit (HISTORY_LIMIT, default 200000) and
its content is a suffix of the concatenation of all output produced since
spawn, so that on overflow only the oldest portion is dropped. -/
theorem c9_pty_history_bounded (limit : Nat) (chunks : List (List Char)) :
    (historyAfter limit chunks).length ≤ limit ∧
      historyAfter limit chunks <:+ chunks.flatten := by
  simpa [historyAfter] using
    historyStep_foldl limit chunks [] [] (by simp) (by simp)

theorem matchesUuidShape_mono (p q : Char → Bool) (hpq : ∀ c, p c = true → q c = true)
    (s : List Char) (h : matchesUuidShape p s = true) : matchesUuidShape q s = true := by
  unfold matchesUuidShape at h ⊢
  split at h
  · simp only [Bool.and_eq_true, beq_iff_eq, List.all_eq_true] at h ⊢
    exact ⟨h.1, fun x hx => hpq x (h.2 x hx)⟩
  · exact absurd h (by simp)

theorem isLowerHex_le_ci (c : Char) (h : isLowerHex c = true) :
    isHexCaseInsensitive c = true := by
  simp [isHexCaseInsensitive, h]

/-- Claim C8 (amended): session-id validation accepts a string exactly when
it matches the 8-4-4-4-12 UUID shape with hex digits of either case (the
source pattern carries the /i flag); every string matching the lower-case
regex of the claim is accepted; and every string the pattern rejects makes
getSessionPaths fail with INVALID_SESSION_ID. -/
theorem c8_uuid_validation (s : List Char) :
    (specLowercaseUuid s = true → validateSessionId s = .ok ()) ∧
    (validateSessionId s = .ok () ↔ uuidPatternTest s = true) ∧
    (uuidPatternTest s = false → getSessionPaths s = .error .INVALID_SESSION_ID) := by
  refine ⟨?_, ?_, ?_⟩
  · intro h
    have : uuidPatternTest s = true :=
      matchesUuidShape_mono isLowerHex isHexCaseInsensitive isLowerHex_le_ci s h
    simp [validateSessionId, this]
  · unfold validateSessionId
    split <;> simp_all
  · intro h
    simp [getSessionPaths, validateSessionId, h]

/-- Claim C8 witness: a lower-case v4 UUID is accepted, and a non-matching
string resolves to INVALID_SESSION_ID. -/
theorem c8_uuid_validation_witness :
    validateSessionId "a0000000-0000-4000-8000-000000000000".toList = .ok () ∧
    getSessionPaths "not-a-uuid".toList = .error .INVALID_SESSION_ID :=
  ⟨(c8_uuid_validation "a0000000-0000-4000-8000-000000000000".toList).1 (by decide),
   (c8_uuid_validation "not-a-uuid".toList).2.2 (by decide)⟩

/-- Claim C8 counterexample: the string with an upper-case hex digit is
accepted by the source pattern (because of the /i flag) although it does not
match the lower-case regex named by the claim. -/
theorem c8_counterexample :
    validateSessionId "A0000000-0000-4000-8000-000000000000".toList = Except.ok () ∧
    specLowercaseUuid "A0000000-0000-4000-8000-000000000000".toList = false :=
  ⟨rfl, by decide⟩


/-- Claim C10: every submitted message whose trimmed content starts with
`/model` (including strings such as `/modelfoo`) is handled inline: the
handler appends an assistant message_start, one text content_block and a
message_end with stopReason end_turn, commits the sidecar, and returns
accepted, without enqueueing a turn or scheduling a child process. -/
theorem c10_slash_model_inline (sessionModel defaultModel : List Char)
    (choices : List (List Char)) (content : List Char)
    (imagePath : Option (List Char)) (userId assistantId : Nat)
    (h : "/model".toList <+: trimChars content) :
    (handleCodexMessage sessionModel defaultModel choices content imagePath
        userId assistantId).enqueued = false ∧
    (handleCodexMessage sessionModel defaultModel choices content imagePath
        userId assistantId).spawnScheduled = false ∧
    (handleCodexMessage sessionModel defaultModel choices content imagePath
        userId assistantId).committed = true ∧
    (handleCodexMessage sessionModel defaultModel choices content imagePath
        userId assistantId).accepted = true ∧
    ∃ t, (handleCodexMessage sessionModel defaultModel choices content imagePath
        userId assistantId).assistantEvents =
      [JEvent.messageStart assistantId .assistant,
       JEvent.contentBlock assistantId 0 (Block.text t),
       JEvent.messageEnd assistantId .endTurn] := by
  have hb : "/model".toList.isPrefixOf (trimChars content) = true := by
    rw [ List.isPrefixOf_iff_prefix]
    exact h
  simp only [handleCodexMessage, hb, Bool.or_true, eq_self_iff_true, if_true]
  exact ⟨trivial, trivial, trivial, trivial, _, rfl⟩

/-- Claim C10 witness: the message `/modelfoo` is neither `/models` nor a
well-formed `/model <name>`, yet it is handled inline and not enqueued. -/
theorem c10_slash_model_inline_witness :
    (handleCodexMessage [] [] [] "/modelfoo".toList none 1 2).enqueued = false ∧
    (handleCodexMessage [] [] [] "/modelfoo".toList none 1 2).spawnScheduled = false ∧
    (handleCodexMessage [] [] [] "/modelfoo".toList none 1 2).committed = true ∧
    (handleCodexMessage [] [] [] "/modelfoo".toList none 1 2).accepted = true ∧
    ∃ t, (handleCodexMessage [] [] [] "/modelfoo".toList none 1 2).assistantEvents =
      [JEvent.messageStart 2 .assistant,
       JEvent.contentBlock 2 0 (Block.text t),
       JEvent.messageEnd 2 .endTurn] :=
  c10_slash_model_inline [] [] [] "/modelfoo".toList none 1 2 (by decide)

/-- Claim C4: the exec engine never starts a turn while the session is in
the active set (startNextCodexTurn returns at once), at any reachable state
the started turns followed by the still-queued turns form a sublist of the
submitted turns in submission order, and when the queue is never cleared
they are exactly the submitted turns in FIFO order. -/
theorem c4_turn_scheduling :
    (∀ (s : EngineState) (t : Turn), s.active = some t → engineStep s .startNext = s) ∧
    (∀ ops : List EngineOp,
      ((runEngine ops).started ++ (runEngine ops).queue).Sublist (runEngine ops).submitted) ∧
    (∀ ops : List EngineOp, EngineOp.clearQueue ∉ ops →
      (runEngine ops).started ++ (runEngine ops).queue = (runEngine ops).submitted) := by
  have step_sublist : ∀ (s : EngineState) (op : EngineOp),
      (s.started ++ s.queue).Sublist s.submitted →
      ((engineStep s op).started ++ (engineStep s op).queue).Sublist (engineStep s op).submitted := by
    intro s op hs
    cases op with
    | submit t =>
      simpa [engineStep, List.append_assoc] using hs.append (List.Sublist.refl [t])
    | startNext =>
      cases ha : s.active with
      | some t => simpa [engineStep, ha] using hs
      | none =>
        cases hq : s.queue with
        | nil => simpa [engineStep, ha, hq] using hs
        | cons t rest =>
          rw [hq] at hs
          simp only [engineStep, ha, hq, List.append_assoc, List.singleton_append]
          exact hs
    | finishTurn => simpa [engineStep] using hs
    | clearQueue =>
      refine List.Sublist.trans ?_ hs
      simp only [engineStep, List.append_nil]
      exact List.sublist_append_left s.started s.queue
  have step_eq : ∀ (s : EngineState) (op : EngineOp), op ≠ .clearQueue →
      s.started ++ s.queue = s.submitted →
      (engineStep s op).started ++ (engineStep s op).queue = (engineStep s op).submitted := by
    intro s op hop hs
    cases op with
    | submit t => simp [engineStep, ← List.append_assoc, hs]
    | startNext =>
      cases ha : s.active with
      | some t => simpa [engineStep, ha] using hs
      | none =>
        cases hq : s.queue with
        | nil => simpa [engineStep, ha, hq] using hs
        | cons t rest =>
          rw [hq] at hs
          simpa [engineStep, ha, hq, List.append_assoc] using hs
    | finishTurn => simpa [engineStep] using hs
    | clearQueue => exact absurd rfl hop
  refine ⟨?_, ?_, ?_⟩
  · intro s t h
    simp [engineStep, h]
  · intro ops
    have : ∀ (l : List EngineOp) (s : EngineState),
        (s.started ++ s.queue).Sublist s.submitted →
        ((l.foldl engineStep s).started ++ (l.foldl engineStep s).queue).Sublist
          (l.foldl engineStep s).submitted := by
      intro l
      induction l with
      | nil => intro s hs; simpa using hs
      | cons op rest ih => intro s hs; exact ih _ (step_sublist s op hs)
    exact this ops initEngine (by simp [initEngine])
  · intro ops hops
    have : ∀ (l : List EngineOp) (s : EngineState), EngineOp.clearQueue ∉ l →
        s.started ++ s.queue = s.submitted →
        (l.foldl engineStep s).started ++ (l.foldl engineStep s).queue =
          (l.foldl engineStep s).submitted := by
      intro l
      induction l with
      | nil => intro s _ hs; simpa using hs
      | cons op rest ih =>
        intro s hmem hs
        have hop : op ≠ .clearQueue := fun hcq => hmem (hcq ▸ List.mem_cons_self op rest)
        exact ih _ (fun hm => hmem (List.mem_cons_of_mem op hm)) (step_eq s op hop hs)
    exact this ops initEngine hops (by simp [initEngine])

/-- Claim C4 witness: a concrete run submitting two turns and starting them
one at a time preserves the FIFO correspondence. -/
theorem c4_turn_scheduling_witness :
    (runEngine [EngineOp.submit ⟨"a".toList, 1⟩, EngineOp.submit ⟨"b".toList, 2⟩,
        EngineOp.startNext, EngineOp.finishTurn, EngineOp.startNext]).started ++
      (runEngine [EngineOp.submit ⟨"a".toList, 1⟩, EngineOp.submit ⟨"b".toList, 2⟩,
        EngineOp.startNext, EngineOp.finishTurn, EngineOp.startNext]).queue =
    (runEngine [EngineOp.submit ⟨"a".toList, 1⟩, EngineOp.submit ⟨"b".toList, 2⟩,
        EngineOp.startNext, EngineOp.finishTurn, EngineOp.startNext]).submitted :=
  c4_turn_scheduling.2.2 _ (by decide)

/-- Claim C7: from any control state satisfying the reachable-state
invariant, two consecutive cancel calls with no submit in between append at
most one cancelled message_end to the journal, and the second call's
response has cancelled:false and running:false. -/
theorem c7_cancel_idempotent (s : CancelCtl) (hinv : CancelCtlInv s) :
    (cancelStep (cancelStep s).1).1.cancelledEnds ≤ s.cancelledEnds + 1 ∧
    (cancelStep (cancelStep s).1).2.cancelled = false ∧
    (cancelStep (cancelStep s).1).2.running = false := by
  obtain ⟨hpf, hff⟩ := hinv
  obtain ⟨hp, hf, fin, n⟩ := s
  cases hp <;> cases hf <;> cases fin <;>
    simp_all [cancelStep, finalizeCancelledCtl]

/-- Claim C7 witness: cancelling twice from a running turn appends one
cancelled message_end and the second response reports nothing running. -/
theorem c7_cancel_idempotent_witness :
    (cancelStep (cancelStep ⟨true, true, false, 0⟩).1).1.cancelledEnds ≤ 0 + 1 ∧
    (cancelStep (cancelStep ⟨true, true, false, 0⟩).1).2.cancelled = false ∧
    (cancelStep (cancelStep ⟨true, true, false, 0⟩).1).2.running = false :=
  c7_cancel_idempotent ⟨true, true, false, 0⟩ (by constructor <;> simp)


theorem streamHistoryEmits_no_limit (since : Int) :
    ∀ (lines : List JLine) (n : Nat),
      streamHistoryEmits since none lines n =
        (journalEntries lines).filter (fun e => e.cursorAbove since) := by
  intro lines
  induction lines with
  | nil => intro n; rfl
  | cons l rest ih =>
    intro n
    cases l with
    | blank => simpa [streamHistoryEmits, journalEntries] using ih n
    | malformed =>
      simpa [streamHistoryEmits, limitReached, journalEntries] using ih n
    | entry e =>
      cases hc : e.cursor with
      | none =>
        simp [streamHistoryEmits, limitReached, journalEntries, List.filter_cons,
          SEntry.cursorAbove, hc, ih n]
      | some c =>
        by_cases hle : c ≤ since
        · simp [streamHistoryEmits, limitReached, journalEntries, List.filter_cons,
            SEntry.cursorAbove, hc, hle, ih n, Int.not_lt.mpr hle]
        · have hlt : since < c := Int.not_le.mp hle
          simp [streamHistoryEmits, limitReached, journalEntries, List.filter_cons,
            SEntry.cursorAbove, hc, hle, ih (n + 1), hlt]

/-- Claim C1 (amended): a client that attaches to the tailer with cursor
`since = k` and no limit receives exactly the journal's records with cursor
greater than `k`, in journal order with no duplicates and no gaps, provided
every record appended after the history snapshot has cursor greater than
`k` (with contiguous cursors this holds whenever `k` does not exceed the
highest cursor at attach time; the live broadcast path performs no cursor
filtering of its own). -/
theorem c1_tailer_delivery (snapshot suffix : List JLine) (k : Int)
    (hsuffix : ∀ e ∈ journalEntries suffix, e.cursorAbove k = true) :
    deliveredRecords snapshot suffix k =
      (journalEntries (snapshot ++ suffix)).filter (fun e => e.cursorAbove k) := by
  unfold deliveredRecords
  rw [streamHistoryEmits_no_limit]
  have hj : journalEntries (snapshot ++ suffix) =
      journalEntries snapshot ++ journalEntries suffix := by
    simp [journalEntries, List.filterMap_append]
  rw [hj, List.filter_append]
  have hs : (journalEntries suffix).filter (fun e => e.cursorAbove k) =
      journalEntries suffix := List.filter_eq_self.mpr hsuffix
  rw [hs]
  rfl

/-- Claim C1 witness: attaching with `since = 1` over a three-record journal
whose third record arrives live delivers exactly the records with cursors 2
and 3. -/
theorem c1_tailer_delivery_witness :
    deliveredRecords [JLine.entry ⟨some 1, 10⟩, JLine.entry ⟨some 2, 20⟩]
        [JLine.entry ⟨some 3, 30⟩] 1 =
      (journalEntries ([JLine.entry ⟨some 1, 10⟩, JLine.entry ⟨some 2, 20⟩] ++
          [JLine.entry ⟨some 3, 30⟩])).filter (fun e => e.cursorAbove 1) :=
  c1_tailer_delivery [JLine.entry ⟨some 1, 10⟩, JLine.entry ⟨some 2, 20⟩]
    [JLine.entry ⟨some 3, 30⟩] 1 (by decide)

/-- Claim C1 counterexample: a client attaching with `since = 2` while the
journal holds only cursor 1 later receives the live record with cursor 2,
although the claim says it receives exactly the records with cursor above 2
(the live broadcast does not filter by cursor). -/
theorem c1_counterexample :
    deliveredRecords [JLine.entry ⟨some 1, 10⟩] [JLine.entry ⟨some 2, 20⟩] 2 ≠
      (journalEntries ([JLine.entry ⟨some 1, 10⟩] ++ [JLine.entry ⟨some 2, 20⟩])).filter
        (fun e => e.cursorAbove 2) := by
  decide


/-- Records produced by a run of appends starting from cursor `c`, with
cursors `c + 1, c + 2, ...` in order. -/
def newRecords (c : Int) : List (List Char × Json) → List JRecord
  | [] => []
  | (e, d) :: rest => ⟨c + 1, e, d⟩ :: newRecords (c + 1) rest

theorem runAppends_cursor (l : List (List Char × Json)) :
    ∀ s : WriterState, (runAppends s l).cursor = s.cursor + l.length := by
  induction l with
  | nil => intro s; simp [runAppends]
  | cons p rest ih =>
    intro s
    obtain ⟨e, d⟩ := p
    rw [runAppends, ih]
    simp [WriterState.append]
    omega

theorem runAppends_fileRecords (l : List (List Char × Json)) :
    ∀ s : WriterState,
      (runAppends s l).fileRecords = s.fileRecords ++ newRecords s.cursor l := by
  induction l with
  | nil => intro s; simp [runAppends, newRecords]
  | cons p rest ih =>
    intro s
    obtain ⟨e, d⟩ := p
    rw [runAppends, ih]
    simp [WriterState.append, newRecords]

theorem mem_newRecords_cursor_le (l : List (List Char × Json)) :
    ∀ (c : Int) (r : JRecord), r ∈ newRecords c l → r.cursor ≤ c + l.length := by
  induction l with
  | nil => intro c r hr; simp [newRecords] at hr
  | cons p rest ih =>
    intro c r hr
    obtain ⟨e, d⟩ := p
    rcases List.mem_cons.mp hr with h | h
    · subst h
      simp only [List.length_cons]
      omega
    · have := ih (c + 1) r h
      simp only [List.length_cons]
      omega

theorem newRecords_last_mem (l : List (List Char × Json)) :
    ∀ c : Int, l ≠ [] → ∃ r ∈ newRecords c l, r.cursor = c + l.length := by
  induction l with
  | nil => intro c h; exact absurd rfl h
  | cons p rest ih =>
    intro c _
    obtain ⟨e, d⟩ := p
    cases hr : rest with
    | nil =>
      refine ⟨⟨c + 1, e, d⟩, by simp [newRecords], by simp⟩
    | cons q qs =>
      obtain ⟨r, hmem, hcur⟩ := ih (c + 1) (by simp [hr])
      rw [← hr]
      refine ⟨r, List.mem_cons_of_mem _ hmem, ?_⟩
      rw [hcur, hr]
      simp only [List.length_cons]
      omega

theorem foldl_max_le (l : List JRecord) :
    ∀ (a m : Int), a ≤ m → (∀ r ∈ l, r.cursor ≤ m) →
      l.foldl (fun x r => max x r.cursor) a ≤ m := by
  induction l with
  | nil => intro a m ha _; simpa using ha
  | cons r rest ih =>
    intro a m ha hall
    rw [List.foldl_cons]
    exact ih _ m (max_le ha (hall r (List.mem_cons_self r rest)))
      fun q hq => hall q (List.mem_cons_of_mem r hq)

theorem init_le_foldl_max (l : List JRecord) :
    ∀ a : Int, a ≤ l.foldl (fun x r => max x r.cursor) a := by
  induction l with
  | nil => intro a; simp
  | cons r rest ih =>
    intro a
    rw [List.foldl_cons]
    exact le_trans (le_max_left a r.cursor) (ih _)

theorem mem_le_foldl_max (l : List JRecord) :
    ∀ (a : Int) (r : JRecord), r ∈ l → r.cursor ≤ l.foldl (fun x q => max x q.cursor) a := by
  induction l with
  | nil => intro a r hr; simp at hr
  | cons q rest ih =>
    intro a r hr
    rcases List.mem_cons.mp hr with h | h
    · subst h
      rw [List.foldl_cons]
      exact le_trans (le_max_right a r.cursor) (init_le_foldl_max rest _)
    · rw [List.foldl_cons]
      exact ih _ r h

theorem journalMaxCursor_eq (l : List JRecord) (m : Int) (h0 : 0 ≤ m)
    (hub : ∀ r ∈ l, r.cursor ≤ m) (hmem : ∃ r ∈ l, r.cursor = m) :
    journalMaxCursor l = m := by
  obtain ⟨r, hr, hcur⟩ := hmem
  exact le_antisymm (foldl_max_le l 0 m h0 hub) (hcur ▸ mem_le_foldl_max l 0 r hr)

/-- Claim C2: each `append(event, data)` increments the writer's cursor by
exactly one, appends exactly one newline-terminated JSON line
`{cursor: String(newCursor), event, data}` to the journal file (the
serialized record itself contains no newline), and returns the new cursor;
and after a run of at least one append followed by `commit()`, the sidecar's
stored lastCursor equals the highest cursor appended, which is the maximum
record cursor present in the journal file under the single-writer
discipline. -/
theorem c2_writer_append_and_commit (s : WriterState) (e : List Char) (d : Json)
    (appends : List (List Char × Json))
    (hbound : ∀ r ∈ s.fileRecords, r.cursor ≤ s.cursor)
    (hpos : 0 ≤ s.cursor) (hne : appends ≠ []) :
    ((s.append e d).1 = s.cursor + 1 ∧ (s.append e d).2.cursor = s.cursor + 1) ∧
    ((s.append e d).2.fileText =
        s.fileText ++ (JRecord.json ⟨s.cursor + 1, e, d⟩).stringify ++ ['\n'] ∧
      '\n' ∉ (JRecord.json ⟨s.cursor + 1, e, d⟩).stringify) ∧
    ((runAppends s appends).commit.metaLastCursor =
        some (s.cursor + appends.length) ∧
      (runAppends s appends).commit.metaLastCursor =
        some (journalMaxCursor (runAppends s appends).commit.fileRecords)) := by
  refine ⟨⟨rfl, rfl⟩, ⟨?_, newline_not_mem_stringify _⟩, ?_, ?_⟩
  · simp [WriterState.append, JRecord.line, List.append_assoc]
  · rw [WriterState.commit, runAppends_cursor]
  · rw [WriterState.commit]
    simp only
    rw [runAppends_cursor, runAppends_fileRecords]
    congr 1
    refine (journalMaxCursor_eq _ _ (by omega) ?_ ?_).symm
    · intro r hr
      rcases List.mem_append.mp hr with h | h
      · have := hbound r h
        omega
      · exact mem_newRecords_cursor_le appends s.cursor r h
    · obtain ⟨r, hr, hcur⟩ := newRecords_last_mem appends s.cursor hne
      exact ⟨r, List.mem_append_right _ hr, hcur⟩

/-- Claim C2 witness: one append on a fresh writer yields cursor 1, appends
one newline-terminated line, and the committed sidecar stores the maximum
journal cursor. -/
theorem c2_writer_append_and_commit_witness :
    (((WriterState.mk 0 [] [] (some 0)).append "message_start".toList Json.null).1 = 0 + 1 ∧
      ((WriterState.mk 0 [] [] (some 0)).append "message_start".toList Json.null).2.cursor = 0 + 1) ∧
    (((WriterState.mk 0 [] [] (some 0)).append "message_start".toList Json.null).2.fileText =
        [] ++ (JRecord.json ⟨0 + 1, "message_start".toList, Json.null⟩).stringify ++ ['\n'] ∧
      '\n' ∉ (JRecord.json ⟨0 + 1, "message_start".toList, Json.null⟩).stringify) ∧
    ((runAppends (WriterState.mk 0 [] [] (some 0))
          [("message_start".toList, Json.null)]).commit.metaLastCursor =
        some (0 + ([("message_start".toList, Json.null)] : List (List Char × Json)).length) ∧
      (runAppends (WriterState.mk 0 [] [] (some 0))
          [("message_start".toList, Json.null)]).commit.metaLastCursor =
        some (journalMaxCursor (runAppends (WriterState.mk 0 [] [] (some 0))
          [("message_start".toList, Json.null)]).commit.fileRecords)) :=
  c2_writer_append_and_commit (WriterState.mk 0 [] [] (some 0)) "message_start".toList
    Json.null [("message_start".toList, Json.null)] (by simp) (by simp) (by simp)


/-- Property of being a content block with messageId `m`. -/
def isContentBlockFor (m : Nat) (e : JEvent) : Prop :=
  ∃ idx b, e = JEvent.contentBlock m idx b

/-- Boolean test for a message_end with id `m`. -/
def isMessageEndFor (m : Nat) (e : JEvent) : Bool :=
  match e with
  | .messageEnd mid _ => mid == m
  | _ => false

/-- Shape invariant of a turn before finalization: the appended events are
the assistant message_start followed by content blocks for the same id. -/
def TurnShape (m : Nat) (s : TurnState) : Prop :=
  ∃ blocks, (∀ e ∈ blocks, isContentBlockFor m e) ∧
    s.events = JEvent.messageStart m .assistant :: blocks

theorem appendBlock_shape {m : Nat} {s : TurnState} {b : Block}
    (h : TurnShape m s) : TurnShape m (s.appendBlock m b) := by
  obtain ⟨blocks, hall, hev⟩ := h
  refine ⟨blocks ++ [JEvent.contentBlock m s.blockIndex b], ?_, ?_⟩
  · intro e he
    rcases List.mem_append.mp he with h | h
    · exact hall e h
    · rcases List.mem_singleton.mp h with rfl
      exact ⟨s.blockIndex, b, rfl⟩
  · simp [TurnState.appendBlock, hev]

theorem stdoutLineStep_shape {m : Nat} {s : TurnState} (l : ChildLine)
    (h : TurnShape m s) : TurnShape m (stdoutLineStep m s l) := by
  cases l with
  | threadStarted _ => exact h
  | turnCompleted => exact h
  | itemStartedCommandExecution a b => exact appendBlock_shape h
  | itemCompletedCommandExecution a b c => exact appendBlock_shape h
  | itemCompletedAgentMessage t =>
    obtain ⟨blocks, hall, hev⟩ := appendBlock_shape (b := Block.text t) h
    exact ⟨blocks, hall, hev⟩
  | itemCompletedReasoning t => exact appendBlock_shape h
  | otherOrUnparsed => exact h

theorem stdoutLineStep_finished (m : Nat) (s : TurnState) (l : ChildLine) :
    (stdoutLineStep m s l).finished = s.finished := by
  cases l <;> rfl

theorem stderrDataStep_events (s : TurnState) (t : List Char) :
    (stderrDataStep s t).events = s.events := by
  unfold stderrDataStep
  split <;> rfl

theorem stderrDataStep_finished (s : TurnState) (t : List Char) :
    (stderrDataStep s t).finished = s.finished := by
  unfold stderrDataStep
  split <;> rfl

theorem finalizeStep_noop (m : Nat) (code : Option Int) (s : TurnState)
    (r : StopReason) (h : s.finished = true) : finalizeStep m code s r = s := by
  unfold finalizeStep
  simp [h]

theorem turn_no_finalize (m : Nat) :
    ∀ (acts : List TurnAct) (s : TurnState),
      (∀ (r : StopReason) (c : Option Int), TurnAct.finalize r c ∉ acts) →
      (acts.foldl (turnStep m) s).finished = s.finished ∧
        (TurnShape m s → TurnShape m (acts.foldl (turnStep m) s)) := by
  intro acts
  induction acts with
  | nil => intro s _; exact ⟨rfl, fun h => h⟩
  | cons a rest ih =>
    intro s hnf
    have hrest : ∀ (r : StopReason) (c : Option Int), TurnAct.finalize r c ∉ rest :=
      fun r c hm => hnf r c (List.mem_cons_of_mem a hm)
    cases a with
    | stdoutLine l =>
      obtain ⟨h1, h2⟩ := ih (stdoutLineStep m s l) hrest
      refine ⟨?_, fun hsh => h2 (stdoutLineStep_shape l hsh)⟩
      rw [List.foldl_cons]
      exact h1.trans (stdoutLineStep_finished m s l)
    | stderrData t =>
      obtain ⟨h1, h2⟩ := ih (stderrDataStep s t) hrest
      constructor
      · rw [List.foldl_cons]
        exact h1.trans (stderrDataStep_finished s t)
      · intro hsh
        apply h2
        obtain ⟨blocks, hall, hev⟩ := hsh
        exact ⟨blocks, hall, (stderrDataStep_events s t).trans hev⟩
    | finalize r c =>
      exact absurd (List.mem_cons_self _ _) (hnf r c)

theorem TurnShape.append_end {m : Nat} {r : StopReason} {s : TurnState}
    (h : TurnShape m s) :
    ∃ blocks, (∀ e ∈ blocks, isContentBlockFor m e) ∧
      s.events ++ [JEvent.messageEnd m r] =
        (JEvent.messageStart m .assistant :: blocks) ++ [JEvent.messageEnd m r] := by
  obtain ⟨blocks, hall, hev⟩ := h
  exact ⟨blocks, hall, by rw [hev]⟩

theorem finalizeStep_shape (m : Nat) (code : Option Int) (s : TurnState)
    (r : StopReason) (hfin : s.finished = false) (hsh : TurnShape m s) :
    (finalizeStep m code s r).finished = true ∧
    ∃ blocks, (∀ e ∈ blocks, isContentBlockFor m e) ∧
      (finalizeStep m code s r).events =
        (JEvent.messageStart m .assistant :: blocks) ++ [JEvent.messageEnd m r] := by
  have h1 : TurnShape m { s with finished := true } := hsh
  unfold finalizeStep
  rw [hfin]
  simp only [Bool.false_eq_true, if_false]
  repeat' split
  all_goals
    first
      | exact ⟨rfl, TurnShape.append_end h1⟩
      | exact ⟨rfl, TurnShape.append_end (appendBlock_shape h1)⟩
      | exact ⟨rfl, TurnShape.append_end (appendBlock_shape (appendBlock_shape h1))⟩

theorem turn_finished_stable (m : Nat) :
    ∀ (acts : List TurnAct) (s : TurnState), s.finished = true →
      (∀ l : ChildLine, TurnAct.stdoutLine l ∉ acts) →
      (acts.foldl (turnStep m) s).events = s.events ∧
        (acts.foldl (turnStep m) s).finished = true := by
  intro acts
  induction acts with
  | nil => intro s hf _; exact ⟨rfl, hf⟩
  | cons a rest ih =>
    intro s hf hnl
    have hrest : ∀ l : ChildLine, TurnAct.stdoutLine l ∉ rest :=
      fun l hm => hnl l (List.mem_cons_of_mem a hm)
    cases a with
    | stdoutLine l => exact absurd (List.mem_cons_self _ _) (hnl l)
    | stderrData t =>
      obtain ⟨h1, h2⟩ := ih (stderrDataStep s t)
        ((stderrDataStep_finished s t).trans hf) hrest
      exact ⟨h1.trans (stderrDataStep_events s t), h2⟩
    | finalize r c =>
      rw [List.foldl_cons]
      have hns : turnStep m s (TurnAct.finalize r c) = s := finalizeStep_noop m c s r hf
      rw [hns]
      exact ih s hf hrest

theorem isContentBlockFor_not_end {m : Nat} {e : JEvent}
    (h : isContentBlockFor m e) : isMessageEndFor m e = false := by
  obtain ⟨idx, b, rfl⟩ := h
  rfl

/-- Claim C3 (amended): for a turn whose finalize runs only after every
stdout line has been processed (no cancellation overlapping in-flight
output), the appended events are exactly the assistant message_start,
content blocks for the same id, and exactly one message_end for that id;
when a cancel finalizes the turn while output lines are still being
processed, the single-message_end part still holds but content blocks may
be appended after the message_end. -/
theorem c3_message_bracketing (m : Nat) (r : StopReason) (code : Option Int)
    (pre post : List TurnAct)
    (hpre : ∀ (r' : StopReason) (c' : Option Int), TurnAct.finalize r' c' ∉ pre)
    (hpost : ∀ l : ChildLine, TurnAct.stdoutLine l ∉ post) :
    ∃ blocks, (∀ e ∈ blocks, isContentBlockFor m e) ∧
      (runTurn m (pre ++ TurnAct.finalize r code :: post)).events =
        (JEvent.messageStart m .assistant :: blocks) ++ [JEvent.messageEnd m r] ∧
      ((runTurn m (pre ++ TurnAct.finalize r code :: post)).events.filter
          (isMessageEndFor m)).length = 1 := by
  unfold runTurn
  rw [List.foldl_append, List.foldl_cons]
  obtain ⟨hfin_pre, hshape_pre⟩ := turn_no_finalize m pre (initTurnState m) hpre
  have hsh0 : TurnShape m (initTurnState m) := ⟨[], by simp, rfl⟩
  have hshape := hshape_pre hsh0
  have hfin : (pre.foldl (turnStep m) (initTurnState m)).finished = false := hfin_pre
  obtain ⟨hfin2, blocks, hall, hev⟩ := finalizeStep_shape m code _ r hfin hshape
  obtain ⟨hev3, _⟩ := turn_finished_stable m post _ hfin2 hpost
  refine ⟨blocks, hall, ?_, ?_⟩
  · show (post.foldl (turnStep m) (finalizeStep m code _ r)).events = _
    rw [hev3, hev]
  · show ((post.foldl (turnStep m) (finalizeStep m code _ r)).events.filter
      (isMessageEndFor m)).length = 1
    rw [hev3, hev, List.filter_append, List.filter_cons]
    have hstart : isMessageEndFor m (JEvent.messageStart m .assistant) = false := rfl
    have hblocks : blocks.filter (isMessageEndFor m) = [] := by
      rw [List.filter_eq_nil_iff]
      intro e he
      simp [isContentBlockFor_not_end (hall e he)]
    have hend : isMessageEndFor m (JEvent.messageEnd m r) = true := by
      simp [isMessageEndFor]
    simp [hstart, hblocks, hend]

/-- Claim C3 witness: a turn that emits one agent message and then
finalizes normally yields start, one text block, and exactly one end. -/
theorem c3_message_bracketing_witness :
    ∃ blocks, (∀ e ∈ blocks, isContentBlockFor 5 e) ∧
      (runTurn 5 ([TurnAct.stdoutLine (ChildLine.itemCompletedAgentMessage "hello".toList)] ++
          TurnAct.finalize StopReason.endTurn (some 0) :: [])).events =
        (JEvent.messageStart 5 .assistant :: blocks) ++ [JEvent.messageEnd 5 .endTurn] ∧
      ((runTurn 5 ([TurnAct.stdoutLine (ChildLine.itemCompletedAgentMessage "hello".toList)] ++
          TurnAct.finalize StopReason.endTurn (some 0) :: [])).events.filter
        (isMessageEndFor 5)).length = 1 :=
  c3_message_bracketing 5 StopReason.endTurn (some 0)
    [TurnAct.stdoutLine (ChildLine.itemCompletedAgentMessage "hello".toList)] []
    (by intro r' c' h; simp at h) (by intro l h; simp at h)

/-- Claim C3 counterexample: when the cancel handler finalizes the turn
while a stdout line is still in flight, the line handler (which has no
finished guard) appends a content block for the message after its
message_end, so the bracketing property of the claim fails on the journal
the engine produces. -/
theorem c3_counterexample :
    (runTurn 0 [TurnAct.finalize StopReason.cancelled none,
        TurnAct.stdoutLine (ChildLine.itemCompletedAgentMessage "hi".toList)]).events =
      [JEvent.messageStart 0 .assistant,
       JEvent.contentBlock 0 0 (Block.text "Cancelled.".toList),
       JEvent.messageEnd 0 .cancelled,
       JEvent.contentBlock 0 1 (Block.text "hi".toList)] ∧
    ¬ specMessageBracketing (runTurn 0 [TurnAct.finalize StopReason.cancelled none,
        TurnAct.stdoutLine (ChildLine.itemCompletedAgentMessage "hi".toList)]).events := by
  have hev : (runTurn 0 [TurnAct.finalize StopReason.cancelled none,
      TurnAct.stdoutLine (ChildLine.itemCompletedAgentMessage "hi".toList)]).events =
      [JEvent.messageStart 0 .assistant,
       JEvent.contentBlock 0 0 (Block.text "Cancelled.".toList),
       JEvent.messageEnd 0 .cancelled,
       JEvent.contentBlock 0 1 (Block.text "hi".toList)] := by decide
  refine ⟨hev, ?_⟩
  intro h
  rw [hev] at h
  obtain ⟨k, hik, ⟨sr, hk⟩, huniq, hblocks⟩ := h 0 0 Role.assistant (by decide)
  have h3 := hblocks 3 1 (Block.text "hi".toList) (by decide)
  have hklen : k < 4 := by
    by_contra hge
    push_neg at hge
    rw [List.getElem?_eq_none (by simpa using hge)] at hk
    exact Option.noConfusion hk
  omega

end ClaudeGateway
